import Mathlib

/-
Verification of the Dekker mutual-exclusion program in src/dekker.cpp.

The program runs two threads (identities 0 and 1).  All protocol variables
(flag[0], flag[1], turn) and the diagnostic counters (in_critical_section,
shared_counter) are C++ std::atomic objects accessed with sequentially
consistent ordering, so the program's behaviours are exactly the sequentially
consistent interleavings of the two threads' atomic accesses.  We embed the
program as a deterministic per-thread small-step automaton over a shared
state; the scheduler choice (which thread performs the next atomic access)
is the only nondeterminism.  Every program counter value below corresponds
to one atomic access (or one pure local step) of src/dekker.cpp; the
print calls and sleeps touch no protocol state and are therefore not steps.
-/

set_option maxHeartbeats 1600000
set_option maxRecDepth 100000

namespace Dekker

/-- Program counter of one thread, one value per atomic access / control point of
thread_function (with dekker_lock and dekker_unlock inlined), src/dekker.cpp:
* loopHead:   for-loop test `i < NUM_ITERATIONS` (line 97)
* setFlag:    `flag[id].store(true, seq_cst)` (line 49)
* checkPeer:  `bool contention = flag[other].load(seq_cst)` (line 52; the
              value is only printed, it does not affect control flow)
* whileTest:  `while (flag[other].load(seq_cst))` (line 58)
* turnCheck:  `if (turn.load(seq_cst) != id)` (line 59)
* backoff:    `flag[id].store(false, seq_cst)` (line 61)
* innerWait:  `while (turn.load(seq_cst) != id) yield` (line 64)
* reraise:    `flag[id].store(true, seq_cst)` (line 69)
* csIncr:     `++in_critical_section` (line 104)
* csRead:     `int old_val = shared_counter.load()` (line 110)
* csWrite:    `shared_counter.store(old_val + 1)` (lines 115-116)
* csDecr:     `--in_critical_section` (line 119)
* unlockTurn: `turn.store(other, seq_cst)` (line 83)
* unlockFlag: `flag[id].store(false, seq_cst)` (line 84)
* loopInc:    `i++` of the for loop (line 97)
* finished:   thread_function returned (line 130)
-/
inductive Pc where
  | loopHead
  | setFlag
  | checkPeer
  | whileTest
  | turnCheck
  | backoff
  | innerWait
  | reraise
  | csIncr
  | csRead
  | csWrite
  | csDecr
  | unlockTurn
  | unlockFlag
  | loopInc
  | finished
  deriving DecidableEq, Repr

/-- Thread-local state: program counter, this thread's intent flag
`flag[id]` (the flag is written only by its owner, so we keep it with the
owner; both threads read both flags), the loop counter `i`, and the local
variable `old_val` of the critical section. -/
structure TS where
  pc : Pc
  flag : Bool
  iter : Nat
  old : Int
  deriving DecidableEq, Repr

/-- The whole shared-memory state: thread 0 (`a`), thread 1 (`b`), and the
shared atomics `turn`, `in_critical_section` (`inCS`) and `shared_counter`
(`counter`) of src/dekker.cpp lines 26-31. -/
structure State where
  a : TS
  b : TS
  turn : Int
  inCS : Int
  counter : Int
  deriving DecidableEq, Repr

/-- `const int NUM_ITERATIONS = 5` (src/dekker.cpp line 34). -/
def NUM_ITERATIONS : Nat := 5

/-- Result of one atomic step of one thread: the thread's new local state
and the new values of the shared atomics. -/
structure Upd where
  ts : TS
  turn : Int
  inCS : Int
  counter : Int

/-- One atomic step of the thread with identity `selfId` whose local state is
`t`, where `otherId` is the peer identity (thread_function computes
`other = 1 - id`, line 93), `otherFlag` is the current value of the peer's
intent flag, and `turn`, `inCS`, `counter` are the shared atomics.  Each case
is the single atomic access named by the program counter (see `Pc`). -/
def microStep (selfId otherId : Int) (t : TS) (otherFlag : Bool)
    (turn inCS counter : Int) : Upd :=
  match t.pc with
  | .loopHead =>
      if t.iter < NUM_ITERATIONS then ⟨{ t with pc := .setFlag }, turn, inCS, counter⟩
      else ⟨{ t with pc := .finished }, turn, inCS, counter⟩
  | .setFlag => ⟨{ t with flag := true, pc := .checkPeer }, turn, inCS, counter⟩
  | .checkPeer => ⟨{ t with pc := .whileTest }, turn, inCS, counter⟩
  | .whileTest =>
      if otherFlag then ⟨{ t with pc := .turnCheck }, turn, inCS, counter⟩
      else ⟨{ t with pc := .csIncr }, turn, inCS, counter⟩
  | .turnCheck =>
      if turn ≠ selfId then ⟨{ t with pc := .backoff }, turn, inCS, counter⟩
      else ⟨{ t with pc := .whileTest }, turn, inCS, counter⟩
  | .backoff => ⟨{ t with flag := false, pc := .innerWait }, turn, inCS, counter⟩
  | .innerWait =>
      if turn = selfId then ⟨{ t with pc := .reraise }, turn, inCS, counter⟩
      else ⟨t, turn, inCS, counter⟩
  | .reraise => ⟨{ t with flag := true, pc := .whileTest }, turn, inCS, counter⟩
  | .csIncr => ⟨{ t with pc := .csRead }, turn, inCS + 1, counter⟩
  | .csRead => ⟨{ t with old := counter, pc := .csWrite }, turn, inCS, counter⟩
  | .csWrite => ⟨{ t with pc := .csDecr }, turn, inCS, t.old + 1⟩
  | .csDecr => ⟨{ t with pc := .unlockTurn }, turn, inCS - 1, counter⟩
  | .unlockTurn => ⟨{ t with pc := .unlockFlag }, otherId, inCS, counter⟩
  | .unlockFlag => ⟨{ t with flag := false, pc := .loopInc }, turn, inCS, counter⟩
  | .loopInc => ⟨{ t with iter := t.iter + 1, pc := .loopHead }, turn, inCS, counter⟩
  | .finished => ⟨t, turn, inCS, counter⟩

/-- One interleaving step: the scheduled thread `i` performs its next atomic
access.  `main` spawns `thread_function(0)` and `thread_function(1)`
(src/dekker.cpp lines 152-153), so thread 0 runs with (id, other) = (0, 1)
and thread 1 with (1, 0).  A finished thread stutters. -/
def threadStep (i : Fin 2) (s : State) : State :=
  if i = 0 then
    let u := microStep 0 1 s.a s.b.flag s.turn s.inCS s.counter
    { a := u.ts, b := s.b, turn := u.turn, inCS := u.inCS, counter := u.counter }
  else
    let u := microStep 1 0 s.b s.a.flag s.turn s.inCS s.counter
    { a := s.a, b := u.ts, turn := u.turn, inCS := u.inCS, counter := u.counter }

/-- The initial shared state: both flags false, `turn = 0`, all counters 0
(src/dekker.cpp lines 26-31), both threads at the top of their loops. -/
def init : State := ⟨⟨.loopHead, false, 0, 0⟩, ⟨.loopHead, false, 0, 0⟩, 0, 0, 0⟩

/-- Run a finite schedule (list of scheduler choices) from a state. -/
def runFrom (s : State) (l : List (Fin 2)) : State :=
  l.foldl (fun s t => threadStep t s) s

/-- A state is reachable iff some finite interleaving of the two threads
produces it from the initial state. -/
def Reachable (s : State) : Prop := ∃ l : List (Fin 2), runFrom init l = s

/-- Program counter of thread `t`. -/
def pcOf (s : State) (t : Fin 2) : Pc := if t = 0 then s.a.pc else s.b.pc

/-- Intent flag `flag[t]`. -/
def flagOf (s : State) (t : Fin 2) : Bool := if t = 0 then s.a.flag else s.b.flag

/-- Loop counter of thread `t`. -/
def iterOf (s : State) (t : Fin 2) : Nat := if t = 0 then s.a.iter else s.b.iter

/-- Local `old_val` of thread `t`. -/
def oldOf (s : State) (t : Fin 2) : Int := if t = 0 then s.a.old else s.b.old

/-- The integer identity of a thread (threads are created with ids 0 and 1,
src/dekker.cpp lines 152-153). -/
def idOf (t : Fin 2) : Int := if t = 0 then 0 else 1

/-- The peer of a thread: `other = 1 - id` (src/dekker.cpp line 93). -/
def peer (t : Fin 2) : Fin 2 := if t = 0 then 1 else 0

/-- Program counters at which a thread's own intent flag is raised. -/
def flagSet : Pc → Bool
  | .checkPeer | .whileTest | .turnCheck | .backoff | .csIncr | .csRead
  | .csWrite | .csDecr | .unlockTurn | .unlockFlag => true
  | _ => false

/-- Program counters between the return of dekker_lock and the completion of
the flag store in dekker_unlock: the span in which the thread holds the
exclusivity guarantee. -/
def holding : Pc → Bool
  | .csIncr | .csRead | .csWrite | .csDecr | .unlockTurn | .unlockFlag => true
  | _ => false

/-- Contribution of one thread to `in_critical_section`: the counter is
incremented at csIncr and decremented at csDecr. -/
def occ : Pc → Int
  | .csRead | .csWrite | .csDecr => 1
  | _ => 0

/-- Contribution of one thread's current cycle to `shared_counter`: the
store of `old_val + 1` has happened at csDecr and stays counted until the
loop counter is incremented at loopInc. -/
def w : Pc → Int
  | .csDecr | .unlockTurn | .unlockFlag | .loopInc => 1
  | _ => 0

/-- Program counters after the unlock flag store and outside the entry
protocol (flag down, not contending). -/
def post : Pc → Bool
  | .loopInc | .loopHead | .finished => true
  | _ => false

/-- Program counters a thread can only occupy while the peer contends:
reached from whileTest seeing the peer's flag raised. -/
def contending : Pc → Bool
  | .turnCheck | .backoff | .innerWait | .reraise => true
  | _ => false


/-- Program counters from the critical-section entry through the loop
counter increment: a thread inside this span completes its cycle (and
increments its loop counter) within finitely many of its own steps. -/
def inBody : Pc → Bool
  | .csIncr | .csRead | .csWrite | .csDecr | .unlockTurn | .unlockFlag | .loopInc => true
  | _ => false

/-- Rank of a pc inside `inBody`, decreasing along the linear chain towards
the loop counter increment. -/
def rankBody : Pc → Nat
  | .csIncr => 6
  | .csRead => 5
  | .csWrite => 4
  | .csDecr => 3
  | .unlockTurn => 2
  | .unlockFlag => 1
  | _ => 0

/-- Program counters of the iteration head and the entry protocol. -/
def entryZone : Pc → Bool
  | .loopHead | .setFlag | .checkPeer | .whileTest | .turnCheck | .backoff
  | .innerWait | .reraise => true
  | _ => false

/-- Rank decreasing towards whileTest for a thread whose identity matches
turn. -/
def rankToWhile : Pc → Nat
  | .loopHead => 5
  | .setFlag => 4
  | .checkPeer => 3
  | .backoff => 3
  | .innerWait => 2
  | .reraise => 1
  | .turnCheck => 1
  | _ => 0

/-- Rank decreasing towards innerWait for a thread whose identity does not
match turn while the peer's flag stays raised. -/
def rankToInner : Pc → Nat
  | .loopHead => 6
  | .setFlag => 5
  | .checkPeer => 4
  | .reraise => 4
  | .whileTest => 3
  | .turnCheck => 2
  | .backoff => 1
  | _ => 0

/-- Program counters outside the body, outside the contending sub-zone and
not finished. -/
def zone4 : Pc → Bool
  | .loopHead | .setFlag | .checkPeer | .whileTest => true
  | _ => false

/-- The two program counters of the outer spin loop. -/
def wtZone : Pc → Bool
  | .whileTest | .turnCheck => true
  | _ => false

/-- Per-thread invariant: the intent flag is exactly determined by the
program counter, and the loop counter stays in range. -/
def TInv (x : TS) : Prop :=
  x.flag = flagSet x.pc ∧
  x.iter ≤ NUM_ITERATIONS ∧
  (x.pc ≠ .loopHead → x.pc ≠ .finished → x.iter < NUM_ITERATIONS) ∧
  (x.pc = .finished → x.iter = NUM_ITERATIONS)

/-- Symmetric joint invariant: turn is one of the two identities, at most
one thread holds the section, and the diagnostic counters are determined by
the two program counters and loop counters. -/
def SymInv (x y : TS) (xi yi turn inCS counter : Int) : Prop :=
  (turn = xi ∨ turn = yi) ∧
  ¬(holding x.pc = true ∧ holding y.pc = true) ∧
  inCS = occ x.pc + occ y.pc ∧
  counter = ((x.iter : Int) + w x.pc) + ((y.iter : Int) + w y.pc)

/-- Directed joint invariant, stated for thread `x` with identity `xi`
against the peer `y` with identity `yi`. -/
def PairInv (x y : TS) (xi yi turn counter : Int) : Prop :=
  (x.pc = .unlockFlag → turn = yi) ∧
  (post y.pc = true → turn = yi → contending x.pc = false) ∧
  (x.pc = .csWrite → x.old = counter)

/-- The full inductive invariant of the interleaved program. -/
def Inv (s : State) : Prop :=
  TInv s.a ∧ TInv s.b ∧ SymInv s.a s.b 0 1 s.turn s.inCS s.counter ∧
  PairInv s.a s.b 0 1 s.turn s.counter ∧ PairInv s.b s.a 1 0 s.turn s.counter

/-- Pure description of how one step moves a thread program counter, as a
function of its current pc, the peer flag, turn, the thread identity and the
loop counter.  Mirrors `microStep` exactly. -/
def nextPc (p : Pc) (oflag : Bool) (turn selfId : Int) (iter : Nat) : Pc :=
  match p with
  | .loopHead => if iter < NUM_ITERATIONS then .setFlag else .finished
  | .setFlag => .checkPeer
  | .checkPeer => .whileTest
  | .whileTest => if oflag then .turnCheck else .csIncr
  | .turnCheck => if turn ≠ selfId then .backoff else .whileTest
  | .backoff => .innerWait
  | .innerWait => if turn = selfId then .reraise else .innerWait
  | .reraise => .whileTest
  | .csIncr => .csRead
  | .csRead => .csWrite
  | .csWrite => .csDecr
  | .csDecr => .unlockTurn
  | .unlockTurn => .unlockFlag
  | .unlockFlag => .loopInc
  | .loopInc => .loopHead
  | .finished => .finished

/-- How one step changes a thread's own intent flag, as a function of its
current pc.  Mirrors the flag stores in `microStep`. -/
def nextFlag (p : Pc) (f : Bool) : Bool :=
  match p with
  | .setFlag => true
  | .reraise => true
  | .backoff => false
  | .unlockFlag => false
  | _ => f

/-- The final check of main (src/dekker.cpp line 168):
`shared_counter == NUM_ITERATIONS * 2` selects the success banner. -/
def harnessSuccess (x : Int) : Bool := x == (NUM_ITERATIONS : Int) * 2

/-- Number of acquisitions thread `t` completes along a schedule: steps at
which it passes the loop test into the critical section. -/
def countAcq (t : Fin 2) : State → List (Fin 2) → Nat
  | _, [] => 0
  | s, u :: l =>
      (if u = t ∧ pcOf s t = .whileTest ∧ pcOf (threadStep u s) t = .csIncr then 1 else 0) +
        countAcq t (threadStep u s) l

/-- Checks that thread `t`'s program counter satisfies `R` in every state
along a schedule (endpoints included). -/
def alwaysIn (t : Fin 2) (R : Pc → Bool) : State → List (Fin 2) → Bool
  | s, [] => R (pcOf s t)
  | s, u :: l => R (pcOf s t) && alwaysIn t R (threadStep u s) l

/-- Checks that thread `t`'s intent flag is raised in every state along a
schedule (endpoints included). -/
def alwaysFlag (t : Fin 2) : State → List (Fin 2) → Bool
  | s, [] => flagOf s t
  | s, u :: l => flagOf s t && alwaysFlag t (threadStep u s) l

/-- Program counters at which a thread is inside the entry protocol after
declaring intent, i.e. waiting to enter the critical section. -/
def waitingToEnter : Pc → Bool
  | .checkPeer | .whileTest | .turnCheck | .backoff | .innerWait | .reraise => true
  | _ => false

/-- A complete schedule: thread 0 runs its five cycles to completion, then
thread 1 runs its five cycles to completion (11 atomic steps per cycle plus
the final loop test). -/
def demoSchedule : List (Fin 2) := List.replicate 56 0 ++ List.replicate 56 1

/-- C++ std::memory_order values. -/
inductive MemOrder where
  | relaxed
  | consume
  | acquire
  | release
  | acqRel
  | seqCst
  deriving DecidableEq, Repr

/-- Which protocol variable an access touches, relative to the calling
contender: its own intent flag, the peer's intent flag, or turn. -/
inductive PVar where
  | intentFlagSelf
  | intentFlagOther
  | turnVar
  deriving DecidableEq, Repr

/-- Load or store. -/
inductive AccessKind where
  | load
  | store
  deriving DecidableEq, Repr

/-- One atomic access to a protocol variable in the source, with its source
line and memory ordering. -/
structure Access where
  line : Nat
  var : PVar
  kind : AccessKind
  ord : MemOrder
  deriving DecidableEq, Repr

/-- Every access to IntentFlag[0], IntentFlag[1] or Turn performed by a
contender (all are inside dekker_lock / dekker_unlock; thread_function
itself touches neither), transcribed from src/dekker.cpp with its memory
ordering.  Line 60's `turn.load()` (inside the trace message) uses
std::atomic's default ordering, which is memory_order_seq_cst. -/
def contenderProtocolAccesses : List Access :=
  [⟨49, .intentFlagSelf, .store, .seqCst⟩,
   ⟨52, .intentFlagOther, .load, .seqCst⟩,
   ⟨58, .intentFlagOther, .load, .seqCst⟩,
   ⟨59, .turnVar, .load, .seqCst⟩,
   ⟨60, .turnVar, .load, .seqCst⟩,
   ⟨61, .intentFlagSelf, .store, .seqCst⟩,
   ⟨64, .turnVar, .load, .seqCst⟩,
   ⟨69, .intentFlagSelf, .store, .seqCst⟩,
   ⟨83, .turnVar, .store, .seqCst⟩,
   ⟨84, .intentFlagSelf, .store, .seqCst⟩]

/-- Infinite run of the program under an infinite schedule. -/
def runSeq (σ : ℕ → Fin 2) : ℕ → State
  | 0 => init
  | n + 1 => threadStep (σ n) (runSeq σ n)

/-- Fair schedule: every thread is scheduled again after every point in
time.  (A thread of this program always has its next atomic access
available — waiting is spinning — so this is exactly fair scheduling.) -/
def Fair (σ : ℕ → Fin 2) : Prop := ∀ t : Fin 2, ∀ n : ℕ, ∃ m, n ≤ m ∧ σ m = t

/-- The strict round-robin schedule 0,1,0,1,... -/
def roundRobin (n : ℕ) : Fin 2 := if n % 2 = 0 then 0 else 1

lemma holding_flagSet {p : Pc} (h : holding p = true) : flagSet p = true := by
  cases p <;> simp_all [holding, flagSet]

lemma post_flagSet {p : Pc} (h : post p = true) : flagSet p = false := by
  cases p <;> simp_all [post, flagSet]

theorem micro_inv (xi yi : Int) (x y : TS) (turn inCS counter : Int)
    (hxy : xi ≠ yi)
    (hx : TInv x) (hy : TInv y)
    (hs : SymInv x y xi yi turn inCS counter)
    (hp : PairInv x y xi yi turn counter)
    (hq : PairInv y x yi xi turn counter) :
    TInv (microStep xi yi x y.flag turn inCS counter).ts ∧
    SymInv (microStep xi yi x y.flag turn inCS counter).ts y xi yi
      (microStep xi yi x y.flag turn inCS counter).turn
      (microStep xi yi x y.flag turn inCS counter).inCS
      (microStep xi yi x y.flag turn inCS counter).counter ∧
    PairInv (microStep xi yi x y.flag turn inCS counter).ts y xi yi
      (microStep xi yi x y.flag turn inCS counter).turn
      (microStep xi yi x y.flag turn inCS counter).counter ∧
    PairInv y (microStep xi yi x y.flag turn inCS counter).ts yi xi
      (microStep xi yi x y.flag turn inCS counter).turn
      (microStep xi yi x y.flag turn inCS counter).counter := by
  obtain ⟨hxf, hxle, hxlt, hxfin⟩ := hx
  obtain ⟨hyf, hyle, hylt, hyfin⟩ := hy
  obtain ⟨hturn, hmut, hocc, hcnt⟩ := hs
  obtain ⟨hpU, hpK, hpW⟩ := hp
  obtain ⟨hqU, hqK, hqW⟩ := hq
  obtain ⟨xpc, xflag, xiter, xold⟩ := x
  cases xpc <;>
    simp only [microStep] <;>
    (try split_ifs with hc) <;>
    simp_all [TInv, SymInv, PairInv, flagSet, holding, occ, w, post, contending]
  all_goals try omega
  all_goals (cases hyp : y.pc <;> simp_all <;> omega)

lemma symInv_swap {x y : TS} {xi yi turn inCS counter : Int}
    (h : SymInv x y xi yi turn inCS counter) : SymInv y x yi xi turn inCS counter := by
  obtain ⟨h1, h2, h3, h4⟩ := h
  exact ⟨h1.symm, fun ⟨u, v⟩ => h2 ⟨v, u⟩, by omega, by omega⟩

theorem inv_init : Inv init := by
  refine ⟨?_, ?_, ?_, ?_, ?_⟩ <;>
    simp [TInv, SymInv, PairInv, init, flagSet, holding, occ, w, post, contending,
      NUM_ITERATIONS]

theorem inv_step (s : State) (h : Inv s) (t : Fin 2) : Inv (threadStep t s) := by
  obtain ⟨ha, hb, hs, hp, hq⟩ := h
  fin_cases t
  · have H := micro_inv 0 1 s.a s.b s.turn s.inCS s.counter (by norm_num) ha hb hs hp hq
    simpa only [threadStep, if_pos] using ⟨H.1, hb, H.2.1, H.2.2.1, H.2.2.2⟩
  · have H := micro_inv 1 0 s.b s.a s.turn s.inCS s.counter (by norm_num) hb ha
      (symInv_swap hs) hq hp
    have hif : ((1 : Fin 2) = 0) = False := by simp
    simp only [threadStep, hif, if_false]
    exact ⟨ha, H.1, symInv_swap H.2.1, H.2.2.2, H.2.2.1⟩

theorem inv_runFrom (l : List (Fin 2)) (s : State) (h : Inv s) : Inv (runFrom s l) := by
  induction l generalizing s with
  | nil => exact h
  | cons t l ih => exact ih _ (inv_step s h t)

theorem inv_reachable {s : State} (h : Reachable s) : Inv s := by
  obtain ⟨l, rfl⟩ := h
  exact inv_runFrom l init inv_init

lemma reachable_init : Reachable init := ⟨[], rfl⟩

lemma reachable_runFrom (l : List (Fin 2)) : Reachable (runFrom init l) := ⟨l, rfl⟩

lemma reachable_step {s : State} (h : Reachable s) (t : Fin 2) :
    Reachable (threadStep t s) := by
  obtain ⟨l, rfl⟩ := h
  exact ⟨l ++ [t], by simp [runFrom, List.foldl_append]⟩

lemma pc_step (t : Fin 2) (s : State) :
    pcOf (threadStep t s) t =
      nextPc (pcOf s t) (flagOf s (peer t)) s.turn (idOf t) (iterOf s t) := by
  fin_cases t
  · cases h : s.a.pc <;>
      simp [threadStep, microStep, nextPc, pcOf, flagOf, iterOf, peer, idOf, h] <;>
      split_ifs <;> simp_all
  · cases h : s.b.pc <;>
      simp [threadStep, microStep, nextPc, pcOf, flagOf, iterOf, peer, idOf, h] <;>
      split_ifs <;> simp_all

lemma flag_step (t : Fin 2) (s : State) :
    flagOf (threadStep t s) t = nextFlag (pcOf s t) (flagOf s t) := by
  fin_cases t
  · cases h : s.a.pc <;>
      simp [threadStep, microStep, nextFlag, pcOf, flagOf, h] <;>
      split_ifs <;> simp_all
  · cases h : s.b.pc <;>
      simp [threadStep, microStep, nextFlag, pcOf, flagOf, h] <;>
      split_ifs <;> simp_all

lemma pc_frozen {t u : Fin 2} (h : u ≠ t) (s : State) :
    pcOf (threadStep u s) t = pcOf s t := by
  fin_cases t <;> fin_cases u <;> simp_all [threadStep, pcOf]

lemma flag_frozen {t u : Fin 2} (h : u ≠ t) (s : State) :
    flagOf (threadStep u s) t = flagOf s t := by
  fin_cases t <;> fin_cases u <;> simp_all [threadStep, flagOf]

lemma iter_frozen {t u : Fin 2} (h : u ≠ t) (s : State) :
    iterOf (threadStep u s) t = iterOf s t := by
  fin_cases t <;> fin_cases u <;> simp_all [threadStep, iterOf]

lemma turn_step (t : Fin 2) (s : State) :
    (threadStep t s).turn = if pcOf s t = .unlockTurn then idOf (peer t) else s.turn := by
  fin_cases t
  · cases h : s.a.pc <;>
      simp [threadStep, microStep, pcOf, peer, idOf, h] <;> split_ifs <;> simp_all
  · cases h : s.b.pc <;>
      simp [threadStep, microStep, pcOf, peer, idOf, h] <;> split_ifs <;> simp_all

lemma iter_step (t : Fin 2) (s : State) :
    iterOf (threadStep t s) t =
      if pcOf s t = .loopInc then iterOf s t + 1 else iterOf s t := by
  fin_cases t
  · cases h : s.a.pc <;>
      simp [threadStep, microStep, pcOf, iterOf, h] <;> split_ifs <;> simp_all
  · cases h : s.b.pc <;>
      simp [threadStep, microStep, pcOf, iterOf, h] <;> split_ifs <;> simp_all

lemma iter_mono (t u : Fin 2) (s : State) :
    iterOf s t ≤ iterOf (threadStep u s) t := by
  by_cases h : u = t
  · subst h
    rw [iter_step]
    split_ifs <;> omega
  · rw [iter_frozen h]

lemma inv_flagOf {s : State} (h : Inv s) (t : Fin 2) :
    flagOf s t = flagSet (pcOf s t) := by
  fin_cases t
  · exact h.1.1
  · exact h.2.1.1

lemma inv_iter_le {s : State} (h : Inv s) (t : Fin 2) :
    iterOf s t ≤ NUM_ITERATIONS := by
  fin_cases t
  · exact h.1.2.1
  · exact h.2.1.2.1

lemma inv_iter_lt {s : State} (h : Inv s) (t : Fin 2)
    (h1 : pcOf s t ≠ .loopHead) (h2 : pcOf s t ≠ .finished) :
    iterOf s t < NUM_ITERATIONS := by
  fin_cases t
  · exact h.1.2.2.1 h1 h2
  · exact h.2.1.2.2.1 h1 h2

lemma inv_finished_iter {s : State} (h : Inv s) (t : Fin 2)
    (hf : pcOf s t = .finished) : iterOf s t = NUM_ITERATIONS := by
  fin_cases t
  · exact h.1.2.2.2 hf
  · exact h.2.1.2.2.2 hf

lemma inv_turn01 {s : State} (h : Inv s) : s.turn = 0 ∨ s.turn = 1 :=
  h.2.2.1.1

lemma inv_mutex {s : State} (h : Inv s) :
    ¬(holding (pcOf s 0) = true ∧ holding (pcOf s 1) = true) :=
  h.2.2.1.2.1

lemma inv_inCS {s : State} (h : Inv s) :
    s.inCS = occ (pcOf s 0) + occ (pcOf s 1) :=
  h.2.2.1.2.2.1

lemma inv_counter {s : State} (h : Inv s) :
    s.counter = ((iterOf s 0 : Int) + w (pcOf s 0)) + ((iterOf s 1 : Int) + w (pcOf s 1)) :=
  h.2.2.1.2.2.2

lemma inv_unlockFlag_turn {s : State} (h : Inv s) (t : Fin 2)
    (hf : pcOf s t = .unlockFlag) : s.turn = idOf (peer t) := by
  fin_cases t
  · exact h.2.2.2.1.1 hf
  · exact h.2.2.2.2.1 hf

lemma inv_K2 {s : State} (h : Inv s) (t : Fin 2)
    (hpost : post (pcOf s (peer t)) = true) (ht : s.turn = idOf (peer t)) :
    contending (pcOf s t) = false := by
  fin_cases t
  · exact h.2.2.2.1.2.1 hpost ht
  · exact h.2.2.2.2.2.1 hpost ht

lemma inv_csWrite_old {s : State} (h : Inv s) (t : Fin 2)
    (hw : pcOf s t = .csWrite) : oldOf s t = s.counter := by
  fin_cases t
  · exact h.2.2.2.1.2.2 hw
  · exact h.2.2.2.2.2.2 hw

lemma occ_sum_le_one {p q : Pc} (h : ¬(holding p = true ∧ holding q = true)) :
    occ p + occ q ≤ 1 := by
  revert h
  cases p <;> cases q <;> decide

/-- Claim C1: in every reachable state of the interleaved two-thread
execution, at most one identity is inside the critical section (between the
return of dekker_lock and the completion of dekker_unlock's flag store),
and the OccupancyCounter in_critical_section never exceeds 1. -/
theorem C1_mutual_exclusion (s : State) (h : Reachable s) :
    ¬(holding (pcOf s 0) = true ∧ holding (pcOf s 1) = true) ∧ s.inCS ≤ 1 := by
  have hI := inv_reachable h
  refine ⟨inv_mutex hI, ?_⟩
  have h0 := inv_inCS hI
  have h1 := occ_sum_le_one (inv_mutex hI)
  omega

theorem C1_witness :
    ¬(holding (pcOf (runFrom init [0, 0, 0, 0, 0]) 0) = true ∧
        holding (pcOf (runFrom init [0, 0, 0, 0, 0]) 1) = true) ∧
      (runFrom init [0, 0, 0, 0, 0]).inCS ≤ 1 :=
  C1_mutual_exclusion (runFrom init [0, 0, 0, 0, 0]) ⟨[0, 0, 0, 0, 0], rfl⟩

/-- Claim C2: in the entry protocol, when the peer's flag was observed true
and turn is not self, the contender moves to the backoff store which lowers
its own flag, then waits at the inner loop until turn equals self (stuttering
otherwise), then re-raises its flag, and then re-evaluates the full while
condition; the only way into the critical section is the while test
observing the peer's flag false — never directly from observing turn. -/
theorem C2_backoff_protocol (s : State) (t : Fin 2) :
    (pcOf s t = .turnCheck → s.turn ≠ idOf t → pcOf (threadStep t s) t = .backoff) ∧
    (pcOf s t = .backoff →
      pcOf (threadStep t s) t = .innerWait ∧ flagOf (threadStep t s) t = false) ∧
    (pcOf s t = .innerWait → s.turn ≠ idOf t → threadStep t s = s) ∧
    (pcOf s t = .innerWait → s.turn = idOf t → pcOf (threadStep t s) t = .reraise) ∧
    (pcOf s t = .reraise →
      pcOf (threadStep t s) t = .whileTest ∧ flagOf (threadStep t s) t = true) ∧
    (pcOf (threadStep t s) t = .csIncr → pcOf s t ≠ .csIncr →
      pcOf s t = .whileTest ∧ flagOf s (peer t) = false) := by
  refine ⟨?_, ?_, ?_, ?_, ?_, ?_⟩
  · intro h1 h2
    rw [pc_step, h1]
    simp [nextPc, h2]
  · intro h1
    rw [pc_step, flag_step, h1]
    simp [nextPc, nextFlag]
  · intro h1 h2
    fin_cases t <;> simp_all [threadStep, microStep, pcOf, idOf]
  · intro h1 h2
    rw [pc_step, h1]
    simp [nextPc, h2]
  · intro h1
    rw [pc_step, flag_step, h1]
    simp [nextPc, nextFlag]
  · intro h1 h2
    rw [pc_step] at h1
    cases hp : pcOf s t <;> rw [hp] at h1 <;> simp [nextPc] at h1 <;>
      first
      | exact ⟨rfl, by simp_all⟩
      | (split_ifs at h1 <;> simp_all)

theorem C2_witness :
    pcOf (threadStep 1 (runFrom init [0, 0, 1, 1, 1, 1])) 1 = .backoff :=
  (C2_backoff_protocol (runFrom init [0, 0, 1, 1, 1, 1]) 1).1 (by decide) (by decide)

/-- Claim C3: the exit protocol first stores turn := other (changing nothing
else), then lowers the caller's own flag (changing nothing else); the flag
store is always immediately preceded by the turn store. -/
theorem C3_unlock_order (s : State) (t : Fin 2) :
    (pcOf s t = .unlockTurn →
      (threadStep t s).turn = idOf (peer t) ∧
      pcOf (threadStep t s) t = .unlockFlag ∧
      flagOf (threadStep t s) 0 = flagOf s 0 ∧ flagOf (threadStep t s) 1 = flagOf s 1 ∧
      (threadStep t s).counter = s.counter ∧ (threadStep t s).inCS = s.inCS ∧
      iterOf (threadStep t s) 0 = iterOf s 0 ∧ iterOf (threadStep t s) 1 = iterOf s 1) ∧
    (pcOf s t = .unlockFlag →
      flagOf (threadStep t s) t = false ∧
      pcOf (threadStep t s) t = .loopInc ∧
      (threadStep t s).turn = s.turn ∧
      flagOf (threadStep t s) (peer t) = flagOf s (peer t) ∧
      (threadStep t s).counter = s.counter ∧ (threadStep t s).inCS = s.inCS) ∧
    (pcOf (threadStep t s) t = .unlockFlag → pcOf s t = .unlockTurn) := by
  refine ⟨?_, ?_, ?_⟩
  · intro h1
    fin_cases t <;> simp_all [threadStep, microStep, pcOf, flagOf, iterOf, idOf, peer]
  · intro h1
    fin_cases t <;> simp_all [threadStep, microStep, pcOf, flagOf, iterOf, idOf, peer]
  · intro h1
    rw [pc_step] at h1
    cases hp : pcOf s t <;> rw [hp] at h1 <;> simp [nextPc] at h1 <;>
      first
      | rfl
      | (split_ifs at h1 <;> simp_all)

theorem C3_witness :
    (threadStep 0 (runFrom init (List.replicate 8 0))).turn = idOf (peer 0) :=
  ((C3_unlock_order (runFrom init (List.replicate 8 0)) 0).1 (by decide)).1

/-- Claim C4: turn always holds 0 or 1 in reachable states; the only step
changing turn is the unlock turn store; and immediately after every unlock
by identity i (both right after the turn store, while the flag store is
pending, and right after the flag store completes), turn = 1 - i. -/
theorem C4_turn_validity (s : State) (t : Fin 2) :
    (Reachable s → s.turn = 0 ∨ s.turn = 1) ∧
    ((threadStep t s).turn ≠ s.turn → pcOf s t = .unlockTurn) ∧
    (Reachable s → pcOf s t = .unlockFlag →
      s.turn = 1 - idOf t ∧ (threadStep t s).turn = 1 - idOf t) := by
  have hpi : idOf (peer t) = 1 - idOf t := by fin_cases t <;> simp [idOf, peer]
  refine ⟨fun h => inv_turn01 (inv_reachable h), ?_, ?_⟩
  · intro hne
    rw [turn_step] at hne
    by_cases h : pcOf s t = .unlockTurn
    · exact h
    · simp [h] at hne
  · intro h hf
    have h1 := inv_unlockFlag_turn (inv_reachable h) t hf
    rw [hpi] at h1
    refine ⟨h1, ?_⟩
    rw [turn_step, if_neg (by simp [hf])]
    exact h1

theorem C4_witness :
    (runFrom init (List.replicate 9 0)).turn = 1 - idOf 0 :=
  ((C4_turn_validity (runFrom init (List.replicate 9 0)) 0).2.2
    ⟨List.replicate 9 0, rfl⟩ (by decide)).1

/-- Claim C5: in every reachable state where both threads have finished
their NUM_ITERATIONS cycles, the shared payload counter equals exactly
2 * NUM_ITERATIONS, and the harness check of main reports success exactly
when the final payload equals 2 * NUM_ITERATIONS. -/
theorem C5_final_counter (s : State) (x : Int) :
    (Reachable s → pcOf s 0 = .finished → pcOf s 1 = .finished →
      s.counter = 2 * (NUM_ITERATIONS : Int) ∧ harnessSuccess s.counter = true) ∧
    (harnessSuccess x = true ↔ x = 2 * (NUM_ITERATIONS : Int)) := by
  constructor
  · intro h h0 h1
    have hI := inv_reachable h
    have hc := inv_counter hI
    have i0 := inv_finished_iter hI 0 h0
    have i1 := inv_finished_iter hI 1 h1
    rw [h0, h1, i0, i1] at hc
    have hval : s.counter = 2 * (NUM_ITERATIONS : Int) := by
      rw [hc]
      simp [w]
      ring
    exact ⟨hval, by simp [harnessSuccess, hval, beq_iff_eq]; ring⟩
  · rw [harnessSuccess, beq_iff_eq]
    constructor <;> intro h <;> omega

theorem C5_witness :
    (runFrom init demoSchedule).counter = 2 * (NUM_ITERATIONS : Int) ∧
      harnessSuccess (runFrom init demoSchedule).counter = true :=
  (C5_final_counter (runFrom init demoSchedule) 0).1
    ⟨demoSchedule, rfl⟩ (by decide) (by decide)

/-- Claim C6: the store flag[self] = true is performed before any read of
flag[other] in the entry protocol: in every reachable state in which a
thread is about to read the peer's flag (the line-52 contention load or the
while test), its own flag is already true; the first such read point,
checkPeer, is only ever reached by executing the setFlag store, which
raises the flag. -/
theorem C6_intent_before_check (s : State) (t : Fin 2) :
    (Reachable s → pcOf s t = .checkPeer ∨ pcOf s t = .whileTest → flagOf s t = true) ∧
    (pcOf (threadStep t s) t = .checkPeer → pcOf s t = .setFlag) ∧
    (pcOf s t = .setFlag → flagOf (threadStep t s) t = true) := by
  refine ⟨?_, ?_, ?_⟩
  · intro h hpc
    rw [inv_flagOf (inv_reachable h) t]
    rcases hpc with h1 | h1 <;> rw [h1] <;> rfl
  · intro h1
    rw [pc_step] at h1
    cases hp : pcOf s t <;> rw [hp] at h1 <;> simp [nextPc] at h1 <;>
      first
      | rfl
      | (split_ifs at h1 <;> simp_all)
  · intro h1
    rw [flag_step, h1]
    rfl

theorem C6_witness : flagOf (runFrom init [0, 0]) 0 = true :=
  (C6_intent_before_check (runFrom init [0, 0]) 0).1 ⟨[0, 0], rfl⟩ (Or.inl (by decide))

/-- Claim C7 counterexample: a concrete execution in which thread 0
completes two acquisitions of the critical section in a row while thread 1
is continuously inside the entry protocol waiting to enter (it backed off,
lowered its flag, and is never scheduled again), refuting the claim that no
identity can acquire twice in a row while the other is continuously
waiting. -/
theorem C7_counterexample :
    Reachable (runFrom init [0, 0, 1, 1, 1, 1, 1, 1]) ∧
    countAcq 0 (runFrom init [0, 0, 1, 1, 1, 1, 1, 1])
      [0, 0, 0, 0, 0, 0, 0, 0, 0, 0, 0, 0, 0] = 2 ∧
    alwaysIn 1 waitingToEnter (runFrom init [0, 0, 1, 1, 1, 1, 1, 1])
      [0, 0, 0, 0, 0, 0, 0, 0, 0, 0, 0, 0, 0] = true :=
  ⟨⟨[0, 0, 1, 1, 1, 1, 1, 1], rfl⟩, by decide, by decide⟩

/-- Claim C7 (amended): a thread can acquire the critical section only at an
instant when the peer's intent flag is false, so during any interval
throughout which the peer's intent flag stays raised, a thread completes no
acquisition at all — in particular it cannot complete two in a row.  (A
peer that has backed off has its flag lowered and, without a fairness
assumption, can be overtaken any number of times.) -/
theorem C7_no_acquisition_while_peer_flagged (s : State) (l : List (Fin 2)) (t : Fin 2)
    (h : alwaysFlag (peer t) s l = true) : countAcq t s l = 0 := by
  induction l generalizing s with
  | nil => rfl
  | cons u l ih =>
    rw [alwaysFlag, Bool.and_eq_true] at h
    obtain ⟨h1, h2⟩ := h
    have hno : ¬(u = t ∧ pcOf s t = .whileTest ∧ pcOf (threadStep u s) t = .csIncr) := by
      rintro ⟨rfl, hw, hcs⟩
      rw [pc_step, hw] at hcs
      simp [nextPc, h1] at hcs
    rw [countAcq, if_neg hno, ih _ h2]

theorem C7_witness : countAcq 0 (runFrom init [0, 0, 1, 1]) [0, 0] = 0 :=
  C7_no_acquisition_while_peer_flagged (runFrom init [0, 0, 1, 1]) [0, 0] 0 (by decide)

/-- Claim C9: every read and write of IntentFlag[0], IntentFlag[1] and Turn
performed by either contender uses sequentially consistent memory ordering
(the transcribed access table of dekker_lock / dekker_unlock is entirely
seq_cst; consequently the program's behaviours are the sequentially
consistent interleavings modelled by threadStep). -/
theorem C9_seq_cst_everywhere :
    contenderProtocolAccesses.all (fun a => a.ord == MemOrder.seqCst) = true := by
  decide

/-- Claim C10: whenever a thread holds the critical section (any point from
the return of dekker_lock up to the flag store of its unlock), its intent
flag is raised; and the only steps that change a thread's intent flag are
that thread's own setFlag, backoff, reraise and unlockFlag stores — the
peer never writes it. -/
theorem C10_holder_flag (s : State) (t u : Fin 2) :
    (Reachable s → holding (pcOf s t) = true → flagOf s t = true) ∧
    (flagOf (threadStep u s) t ≠ flagOf s t →
      u = t ∧ (pcOf s t = .setFlag ∨ pcOf s t = .backoff ∨ pcOf s t = .reraise ∨
        pcOf s t = .unlockFlag)) := by
  constructor
  · intro h hh
    rw [inv_flagOf (inv_reachable h) t]
    exact holding_flagSet hh
  · intro hne
    by_cases h : u = t
    · subst h
      rw [flag_step] at hne
      refine ⟨rfl, ?_⟩
      cases hp : pcOf s u <;> rw [hp] at hne <;> simp [nextFlag] at hne <;> simp_all
    · rw [flag_frozen (by simpa using h)] at hne
      exact absurd rfl hne

theorem C10_witness : flagOf (runFrom init [0, 0, 0, 0]) 0 = true :=
  (C10_holder_flag (runFrom init [0, 0, 0, 0]) 0 0).1 ⟨[0, 0, 0, 0], rfl⟩ (by decide)

lemma runSeq_succ (σ : ℕ → Fin 2) (n : ℕ) :
    runSeq σ (n + 1) = threadStep (σ n) (runSeq σ n) := rfl

lemma reachable_runSeq (σ : ℕ → Fin 2) (n : ℕ) : Reachable (runSeq σ n) := by
  induction n with
  | zero => exact reachable_init
  | succ n ih => exact reachable_step ih (σ n)

lemma exists_first_sched (σ : ℕ → Fin 2) (hF : Fair σ) (t : Fin 2) (n : ℕ) :
    ∃ m, n ≤ m ∧ σ m = t ∧ ∀ k, n ≤ k → k < m → σ k ≠ t := by
  obtain ⟨m0, hm0, hσ⟩ := hF t n
  have hex : ∃ m, n ≤ m ∧ σ m = t := ⟨m0, hm0, hσ⟩
  refine ⟨Nat.find hex, (Nat.find_spec hex).1, (Nat.find_spec hex).2, ?_⟩
  intro k hk1 hk2 hk3
  exact Nat.find_min hex hk2 ⟨hk1, hk3⟩

lemma pc_const_until (σ : ℕ → Fin 2) (t : Fin 2) {n m : ℕ} (h : n ≤ m)
    (hns : ∀ k, n ≤ k → k < m → σ k ≠ t) :
    pcOf (runSeq σ m) t = pcOf (runSeq σ n) t := by
  induction m, h using Nat.le_induction with
  | base => rfl
  | succ m hm ih =>
    rw [runSeq_succ, pc_frozen (hns m hm (by omega))]
    exact ih fun k hk1 hk2 => hns k hk1 (by omega)

lemma flag_const_until (σ : ℕ → Fin 2) (t : Fin 2) {n m : ℕ} (h : n ≤ m)
    (hns : ∀ k, n ≤ k → k < m → σ k ≠ t) :
    flagOf (runSeq σ m) t = flagOf (runSeq σ n) t := by
  induction m, h using Nat.le_induction with
  | base => rfl
  | succ m hm ih =>
    rw [runSeq_succ, flag_frozen (hns m hm (by omega))]
    exact ih fun k hk1 hk2 => hns k hk1 (by omega)

lemma iter_le_seq (σ : ℕ → Fin 2) (t : Fin 2) {n m : ℕ} (h : n ≤ m) :
    iterOf (runSeq σ n) t ≤ iterOf (runSeq σ m) t := by
  induction m, h using Nat.le_induction with
  | base => exact le_refl _
  | succ m hm ih => exact le_trans ih (iter_mono t (σ m) (runSeq σ m))

lemma nat_stab (f : ℕ → ℕ) (mono : ∀ n m, n ≤ m → f n ≤ f m) (B : ℕ)
    (bdd : ∀ n, f n ≤ B) : ∃ n0, ∀ m, n0 ≤ m → f m = f n0 := by
  by_contra h
  push_neg at h
  have grow : ∀ k : ℕ, ∃ n, k ≤ f n := by
    intro k
    induction k with
    | zero => exact ⟨0, by omega⟩
    | succ k ih =>
      obtain ⟨n, hn⟩ := ih
      obtain ⟨m, hm1, hm2⟩ := h n
      have : f n < f m := lt_of_le_of_ne (mono n m hm1) (Ne.symm hm2)
      exact ⟨m, by omega⟩
  obtain ⟨n, hn⟩ := grow (B + 1)
  have := bdd n
  omega

/-- The fair-progress workhorse: if, whenever thread `u` is scheduled inside
the stable zone `S` with the target `T` not yet met, its step either meets
the target or strictly decreases `rank` while staying in `S`, then from any
point inside `S` the target is eventually met. -/
lemma chase (σ : ℕ → Fin 2) (hF : Fair σ) (u : Fin 2) (S : Pc → Bool)
    (rank : Pc → Nat) (T : ℕ → Prop) (n1 : ℕ)
    (hstep : ∀ m, n1 ≤ m → σ m = u → S (pcOf (runSeq σ m) u) = true → ¬T m →
      T (m + 1) ∨ (S (pcOf (runSeq σ (m + 1)) u) = true ∧
        rank (pcOf (runSeq σ (m + 1)) u) < rank (pcOf (runSeq σ m) u))) :
    ∀ r n, n1 ≤ n → S (pcOf (runSeq σ n) u) = true →
      rank (pcOf (runSeq σ n) u) = r → ∃ m, n ≤ m ∧ T m := by
  intro r
  induction r using Nat.strong_induction_on with
  | _ r ih =>
    intro n hn hS hr
    by_cases hT : T n
    · exact ⟨n, le_refl n, hT⟩
    obtain ⟨m, hm1, hm2, hm3⟩ := exists_first_sched σ hF u n
    have hpc : pcOf (runSeq σ m) u = pcOf (runSeq σ n) u := pc_const_until σ u hm1 hm3
    by_cases hTm : T m
    · exact ⟨m, hm1, hTm⟩
    rcases hstep m (le_trans hn hm1) hm2 (by rw [hpc]; exact hS) hTm with h | ⟨hS2, hlt⟩
    · exact ⟨m + 1, by omega, h⟩
    · have hlt2 : rank (pcOf (runSeq σ (m + 1)) u) < r := by
        rw [← hr, ← hpc]
        exact hlt
      obtain ⟨m2, hm21, hm22⟩ := ih _ hlt2 (m + 1) (by omega) hS2 rfl
      exact ⟨m2, by omega, hm22⟩

lemma finished_absorbing (σ : ℕ → Fin 2) (t : Fin 2) {n : ℕ}
    (h : pcOf (runSeq σ n) t = .finished) :
    ∀ m, n ≤ m → pcOf (runSeq σ m) t = .finished := by
  intro m hm
  induction m, hm using Nat.le_induction with
  | base => exact h
  | succ m hm ih =>
    rw [runSeq_succ]
    by_cases hs : σ m = t
    · rw [hs, pc_step, ih]
      rfl
    · rw [pc_frozen hs, ih]

lemma exists_never_finished (σ : ℕ → Fin 2)
    (H : ∀ n, ¬(pcOf (runSeq σ n) 0 = .finished ∧ pcOf (runSeq σ n) 1 = .finished)) :
    ∃ u : Fin 2, ∀ n, pcOf (runSeq σ n) u ≠ .finished := by
  by_contra h
  push_neg at h
  obtain ⟨n0, hn0⟩ := h 0
  obtain ⟨n1, hn1⟩ := h 1
  exact H (max n0 n1)
    ⟨finished_absorbing σ 0 hn0 _ (le_max_left _ _),
     finished_absorbing σ 1 hn1 _ (le_max_right _ _)⟩

lemma exists_stable (σ : ℕ → Fin 2) :
    ∃ N0, ∀ t : Fin 2, ∀ m, N0 ≤ m →
      iterOf (runSeq σ m) t = iterOf (runSeq σ N0) t := by
  obtain ⟨n0, h0⟩ := nat_stab (fun n => iterOf (runSeq σ n) 0)
    (fun n m h => iter_le_seq σ 0 h) NUM_ITERATIONS
    (fun n => inv_iter_le (inv_reachable (reachable_runSeq σ n)) 0)
  obtain ⟨n1, h1⟩ := nat_stab (fun n => iterOf (runSeq σ n) 1)
    (fun n m h => iter_le_seq σ 1 h) NUM_ITERATIONS
    (fun n => inv_iter_le (inv_reachable (reachable_runSeq σ n)) 1)
  refine ⟨max n0 n1, ?_⟩
  intro t m hm
  fin_cases t
  · show iterOf (runSeq σ m) 0 = iterOf (runSeq σ (max n0 n1)) 0
    have e1 := h0 m (le_trans (le_max_left _ _) hm)
    have e2 := h0 (max n0 n1) (le_max_left _ _)
    omega
  · show iterOf (runSeq σ m) 1 = iterOf (runSeq σ (max n0 n1)) 1
    have e1 := h1 m (le_trans (le_max_right _ _) hm)
    have e2 := h1 (max n0 n1) (le_max_right _ _)
    omega

lemma no_inBody (σ : ℕ → Fin 2) (hF : Fair σ) {N0 : ℕ}
    (hst : ∀ t : Fin 2, ∀ m, N0 ≤ m → iterOf (runSeq σ m) t = iterOf (runSeq σ N0) t) :
    ∀ t : Fin 2, ∀ n, N0 ≤ n → inBody (pcOf (runSeq σ n) t) = false := by
  intro t n hn
  by_contra hB
  rw [Bool.not_eq_false] at hB
  have hchase := chase σ hF t inBody rankBody
    (fun m => iterOf (runSeq σ m) t ≠ iterOf (runSeq σ N0) t) N0 ?_
      (rankBody (pcOf (runSeq σ n) t)) n hn hB rfl
  · obtain ⟨m, hm1, hm2⟩ := hchase
    exact hm2 (hst t m (le_trans hn hm1))
  · intro m hm hsch hS hT
    rw [not_ne_iff] at hT
    have hstep_pc : pcOf (runSeq σ (m + 1)) t =
        nextPc (pcOf (runSeq σ m) t) (flagOf (runSeq σ m) (peer t))
          (runSeq σ m).turn (idOf t) (iterOf (runSeq σ m) t) := by
      rw [runSeq_succ, hsch]
      exact pc_step t _
    have hstep_it : iterOf (runSeq σ (m + 1)) t =
        if pcOf (runSeq σ m) t = .loopInc then iterOf (runSeq σ m) t + 1
        else iterOf (runSeq σ m) t := by
      rw [runSeq_succ, hsch]
      exact iter_step t _
    cases hp : pcOf (runSeq σ m) t
    all_goals rw [hp] at hS hstep_pc hstep_it
    all_goals simp only [inBody] at hS
    all_goals try exact absurd hS (by decide)
    case loopInc =>
      left
      simp only [if_pos] at hstep_it
      omega
    all_goals right
    all_goals rw [hstep_pc]
    all_goals simp [nextPc, inBody, rankBody, hp]

lemma turn_stable (σ : ℕ → Fin 2) {N0 : ℕ}
    (hA : ∀ t : Fin 2, ∀ n, N0 ≤ n → inBody (pcOf (runSeq σ n) t) = false) :
    ∀ m, N0 ≤ m → (runSeq σ m).turn = (runSeq σ N0).turn := by
  intro m hm
  induction m, hm using Nat.le_induction with
  | base => rfl
  | succ m hm ih =>
    have hnu : pcOf (runSeq σ m) (σ m) ≠ .unlockTurn := by
      intro hem
      have h2 := hA (σ m) m hm
      rw [hem] at h2
      exact absurd h2 (by decide)
    rw [runSeq_succ, turn_step, if_neg hnu, ih]

lemma flag_true_at_sched_whileTest (σ : ℕ → Fin 2) {N0 : ℕ}
    (hA : ∀ t : Fin 2, ∀ n, N0 ≤ n → inBody (pcOf (runSeq σ n) t) = false) :
    ∀ t : Fin 2, ∀ m, N0 ≤ m → σ m = t → pcOf (runSeq σ m) t = .whileTest →
      flagOf (runSeq σ m) (peer t) = true := by
  intro t m hm hsch hpc
  by_contra hfl
  rw [Bool.not_eq_true] at hfl
  have hcs : pcOf (runSeq σ (m + 1)) t = .csIncr := by
    rw [runSeq_succ, hsch, pc_step, hpc]
    simp [nextPc, hfl]
  have h2 := hA t (m + 1) (by omega)
  rw [hcs] at h2
  exact absurd h2 (by decide)

lemma winner_stuck (σ : ℕ → Fin 2) (hF : Fair σ) {N0 : ℕ}
    (hA : ∀ t : Fin 2, ∀ n, N0 ≤ n → inBody (pcOf (runSeq σ n) t) = false)
    (a : Fin 2)
    (hnf : ∀ n, pcOf (runSeq σ n) a ≠ .finished)
    (hturn : ∀ n, N0 ≤ n → (runSeq σ n).turn = idOf a) :
    ∃ m2, N0 ≤ m2 ∧ ∀ n, m2 ≤ n →
      (pcOf (runSeq σ n) a = .whileTest ∨ pcOf (runSeq σ n) a = .turnCheck) := by
  have hS0 : entryZone (pcOf (runSeq σ N0) a) = true := by
    have h1 := hA a N0 (le_refl _)
    have h2 := hnf N0
    revert h1 h2
    cases pcOf (runSeq σ N0) a <;> simp [inBody, entryZone]
  have hchase := chase σ hF a entryZone rankToWhile
    (fun m => pcOf (runSeq σ m) a = .whileTest) N0 ?_
    (rankToWhile (pcOf (runSeq σ N0) a)) N0 (le_refl _) hS0 rfl
  · obtain ⟨m2, hm21, hm22⟩ := hchase
    refine ⟨m2, hm21, ?_⟩
    intro n hn
    induction n, hn using Nat.le_induction with
    | base => exact Or.inl hm22
    | succ n hn ih =>
      by_cases hs : σ n = a
      · rcases ih with h | h
        · have hfl := flag_true_at_sched_whileTest σ hA a n (le_trans hm21 hn) hs h
          right
          rw [runSeq_succ, hs, pc_step, h]
          simp [nextPc, hfl]
        · left
          rw [runSeq_succ, hs, pc_step, h]
          simp [nextPc, hturn n (le_trans hm21 hn)]
      · rw [runSeq_succ, pc_frozen hs]
        exact ih
  · intro m hm hsch hS hT
    have hnext : pcOf (runSeq σ (m + 1)) a =
        nextPc (pcOf (runSeq σ m) a) (flagOf (runSeq σ m) (peer a))
          (runSeq σ m).turn (idOf a) (iterOf (runSeq σ m) a) := by
      rw [runSeq_succ, hsch]
      exact pc_step a _
    cases hp : pcOf (runSeq σ m) a
    all_goals rw [hp] at hS hnext
    all_goals try exact absurd hS (by decide)
    case loopHead =>
      by_cases hit : iterOf (runSeq σ m) a < NUM_ITERATIONS
      · right
        rw [hnext]
        simp [nextPc, hit, entryZone, rankToWhile]
      · exfalso
        apply hnf (m + 1)
        rw [hnext]
        simp [nextPc, hit]
    case setFlag =>
      right
      rw [hnext]
      simp [nextPc, entryZone, rankToWhile]
    case checkPeer =>
      left
      show pcOf (runSeq σ (m + 1)) a = Pc.whileTest
      rw [hnext]
      simp [nextPc]
    case whileTest => exact absurd hp hT
    case turnCheck =>
      left
      show pcOf (runSeq σ (m + 1)) a = Pc.whileTest
      rw [hnext]
      simp [nextPc, hturn m hm]
    case backoff =>
      right
      rw [hnext]
      simp [nextPc, entryZone, rankToWhile]
    case innerWait =>
      right
      rw [hnext]
      simp [nextPc, hturn m hm, entryZone, rankToWhile]
    case reraise =>
      left
      show pcOf (runSeq σ (m + 1)) a = Pc.whileTest
      rw [hnext]
      simp [nextPc]

lemma loser_stuck (σ : ℕ → Fin 2) (hF : Fair σ) {N0 m2 : ℕ}
    (hA : ∀ t : Fin 2, ∀ n, N0 ≤ n → inBody (pcOf (runSeq σ n) t) = false)
    (b : Fin 2)
    (hnf : ∀ n, pcOf (runSeq σ n) b ≠ .finished)
    (hm2 : N0 ≤ m2)
    (hflag : ∀ n, m2 ≤ n → flagOf (runSeq σ n) (peer b) = true)
    (hturn : ∀ n, N0 ≤ n → (runSeq σ n).turn = idOf (peer b)) :
    ∃ m3, m2 ≤ m3 ∧ ∀ n, m3 ≤ n → pcOf (runSeq σ n) b = .innerWait := by
  have hidne : idOf (peer b) ≠ idOf b := by fin_cases b <;> decide
  have hS0 : entryZone (pcOf (runSeq σ m2) b) = true := by
    have h1 := hA b m2 hm2
    have h2 := hnf m2
    revert h1 h2
    cases pcOf (runSeq σ m2) b <;> simp [inBody, entryZone]
  have hchase := chase σ hF b entryZone rankToInner
    (fun m => pcOf (runSeq σ m) b = .innerWait) m2 ?_
    (rankToInner (pcOf (runSeq σ m2) b)) m2 (le_refl _) hS0 rfl
  · obtain ⟨m3, hm31, hm32⟩ := hchase
    refine ⟨m3, hm31, ?_⟩
    intro n hn
    induction n, hn using Nat.le_induction with
    | base => exact hm32
    | succ n hn ih =>
      by_cases hs : σ n = b
      · rw [runSeq_succ, hs, pc_step, ih]
        have ht := hturn n (le_trans (le_trans hm2 hm31) hn)
        simp [nextPc, ht, hidne]
      · rw [runSeq_succ, pc_frozen hs]
        exact ih
  · intro m hm hsch hS hT
    have hnext : pcOf (runSeq σ (m + 1)) b =
        nextPc (pcOf (runSeq σ m) b) (flagOf (runSeq σ m) (peer b))
          (runSeq σ m).turn (idOf b) (iterOf (runSeq σ m) b) := by
      rw [runSeq_succ, hsch]
      exact pc_step b _
    cases hp : pcOf (runSeq σ m) b
    all_goals rw [hp] at hS hnext
    all_goals try exact absurd hS (by decide)
    case loopHead =>
      by_cases hit : iterOf (runSeq σ m) b < NUM_ITERATIONS
      · right
        rw [hnext]
        simp [nextPc, hit, entryZone, rankToInner]
      · exfalso
        apply hnf (m + 1)
        rw [hnext]
        simp [nextPc, hit]
    case setFlag =>
      right
      rw [hnext]
      simp [nextPc, entryZone, rankToInner]
    case checkPeer =>
      right
      rw [hnext]
      simp [nextPc, entryZone, rankToInner]
    case whileTest =>
      right
      rw [hnext]
      simp [nextPc, hflag m hm, entryZone, rankToInner]
    case turnCheck =>
      right
      rw [hnext]
      simp [nextPc, hturn m (le_trans hm2 hm), hidne, entryZone, rankToInner]
    case backoff =>
      left
      show pcOf (runSeq σ (m + 1)) b = Pc.innerWait
      rw [hnext]
      simp [nextPc]
    case innerWait => exact absurd hp hT
    case reraise =>
      right
      rw [hnext]
      simp [nextPc, entryZone, rankToInner]

lemma cross_contra (σ : ℕ → Fin 2) (hF : Fair σ) {N0 m2 m3 : ℕ}
    (hA : ∀ t : Fin 2, ∀ n, N0 ≤ n → inBody (pcOf (runSeq σ n) t) = false)
    (a : Fin 2)
    (hm2 : N0 ≤ m2) (hm3 : m2 ≤ m3)
    (hzone : ∀ n, m2 ≤ n →
      (pcOf (runSeq σ n) a = .whileTest ∨ pcOf (runSeq σ n) a = .turnCheck))
    (hturn : ∀ n, N0 ≤ n → (runSeq σ n).turn = idOf a)
    (hflagb : ∀ n, m3 ≤ n → flagOf (runSeq σ n) (peer a) = false) : False := by
  have hS0 : wtZone (pcOf (runSeq σ m3) a) = true := by
    rcases hzone m3 hm3 with h | h <;> rw [h] <;> rfl
  have hchase := chase σ hF a wtZone rankToWhile (fun _ => False) m3 ?_
    (rankToWhile (pcOf (runSeq σ m3) a)) m3 (le_refl _) hS0 rfl
  · obtain ⟨m, _, hFalse⟩ := hchase
    exact hFalse
  · intro m hm hsch hS _
    have hnext : pcOf (runSeq σ (m + 1)) a =
        nextPc (pcOf (runSeq σ m) a) (flagOf (runSeq σ m) (peer a))
          (runSeq σ m).turn (idOf a) (iterOf (runSeq σ m) a) := by
      rw [runSeq_succ, hsch]
      exact pc_step a _
    cases hp : pcOf (runSeq σ m) a
    all_goals rw [hp] at hS hnext
    all_goals try exact absurd hS (by decide)
    case whileTest =>
      left
      have h1 := flag_true_at_sched_whileTest σ hA a m
        (le_trans hm2 (le_trans hm3 hm)) hsch hp
      have h2 := hflagb m hm
      rw [h1] at h2
      exact absurd h2 (by decide)
    case turnCheck =>
      right
      rw [hnext]
      simp [nextPc, hturn m (le_trans hm2 (le_trans hm3 hm)), wtZone, rankToWhile]

lemma blocked_loser_contra (σ : ℕ → Fin 2) (hF : Fair σ) {N0 mf : ℕ}
    (hA : ∀ t : Fin 2, ∀ n, N0 ≤ n → inBody (pcOf (runSeq σ n) t) = false)
    (u : Fin 2)
    (hnf : ∀ n, pcOf (runSeq σ n) u ≠ .finished)
    (hvfin : ∀ n, mf ≤ n → pcOf (runSeq σ n) (peer u) = .finished)
    (hturn : ∀ n, N0 ≤ n → (runSeq σ n).turn = idOf (peer u)) : False := by
  have hzone4 : ∀ n, max N0 mf ≤ n → zone4 (pcOf (runSeq σ n) u) = true := by
    intro n hn
    have h1 := hA u n (le_trans (le_max_left _ _) hn)
    have h2 := hnf n
    have h3 : contending (pcOf (runSeq σ n) u) = false := by
      apply inv_K2 (inv_reachable (reachable_runSeq σ n)) u
      · rw [hvfin n (le_trans (le_max_right _ _) hn)]
        rfl
      · exact hturn n (le_trans (le_max_left _ _) hn)
    revert h1 h2 h3
    cases pcOf (runSeq σ n) u <;> simp [inBody, contending, zone4]
  have hflagv : ∀ n, max N0 mf ≤ n → flagOf (runSeq σ n) (peer u) = false := by
    intro n hn
    rw [inv_flagOf (inv_reachable (reachable_runSeq σ n)) (peer u),
      hvfin n (le_trans (le_max_right _ _) hn)]
    rfl
  have hchase := chase σ hF u zone4 rankToWhile (fun _ => False) (max N0 mf) ?_
    (rankToWhile (pcOf (runSeq σ (max N0 mf)) u)) (max N0 mf) (le_refl _)
    (hzone4 _ (le_refl _)) rfl
  · obtain ⟨m, _, hFalse⟩ := hchase
    exact hFalse
  · intro m hm hsch hS _
    have hnext : pcOf (runSeq σ (m + 1)) u =
        nextPc (pcOf (runSeq σ m) u) (flagOf (runSeq σ m) (peer u))
          (runSeq σ m).turn (idOf u) (iterOf (runSeq σ m) u) := by
      rw [runSeq_succ, hsch]
      exact pc_step u _
    cases hp : pcOf (runSeq σ m) u
    all_goals rw [hp] at hS hnext
    all_goals try exact absurd hS (by decide)
    case loopHead =>
      by_cases hit : iterOf (runSeq σ m) u < NUM_ITERATIONS
      · right
        rw [hnext]
        simp [nextPc, hit, zone4, rankToWhile]
      · exfalso
        apply hnf (m + 1)
        rw [hnext]
        simp [nextPc, hit]
    case setFlag =>
      right
      rw [hnext]
      simp [nextPc, zone4, rankToWhile]
    case checkPeer =>
      right
      rw [hnext]
      simp [nextPc, zone4, rankToWhile]
    case whileTest =>
      left
      have h1 := flag_true_at_sched_whileTest σ hA u m
        (le_trans (le_max_left _ _) hm) hsch hp
      have h2 := hflagv m hm
      rw [h1] at h2
      exact absurd h2 (by decide)

lemma peer_peer (u : Fin 2) : peer (peer u) = u := by
  fin_cases u <;> rfl

lemma fair_roundRobin : Fair roundRobin := by
  intro t n
  fin_cases t
  · refine ⟨2 * n, by omega, ?_⟩
    show roundRobin (2 * n) = 0
    simp [roundRobin, Nat.mul_mod_right]
  · refine ⟨2 * n + 1, by omega, ?_⟩
    show roundRobin (2 * n + 1) = 1
    have h2 : (2 * n + 1) % 2 = 1 := by omega
    simp [roundRobin, h2]

/-- Claim C8: under fair scheduling (every thread is scheduled again after
every point in time), every run reaches a state in which both contenders
have finished their NUM_ITERATIONS = 5 cycles; the joins in main then
return. -/
theorem C8_termination (σ : ℕ → Fin 2) (hF : Fair σ) :
    ∃ n, pcOf (runSeq σ n) 0 = .finished ∧ pcOf (runSeq σ n) 1 = .finished := by
  by_contra H
  have H2 : ∀ n, ¬(pcOf (runSeq σ n) 0 = .finished ∧ pcOf (runSeq σ n) 1 = .finished) :=
    fun n hn => H ⟨n, hn⟩
  obtain ⟨u, hu⟩ := exists_never_finished σ H2
  have hpp : peer (peer u) = u := peer_peer u
  obtain ⟨N0, hst⟩ := exists_stable σ
  have hA := no_inBody σ hF hst
  have hts := turn_stable σ hA
  have h01 := inv_turn01 (inv_reachable (reachable_runSeq σ N0))
  have hcover : (runSeq σ N0).turn = idOf u ∨ (runSeq σ N0).turn = idOf (peer u) := by
    fin_cases u <;> simp [idOf, peer] <;> tauto
  rcases hcover with hc | hc
  · -- the stable turn favours the never-finished thread u
    have hturn : ∀ n, N0 ≤ n → (runSeq σ n).turn = idOf u :=
      fun n hn => (hts n hn).trans hc
    obtain ⟨m2, hm21, hm22⟩ := winner_stuck σ hF hA u hu hturn
    have hflagu : ∀ n, m2 ≤ n → flagOf (runSeq σ n) u = true := by
      intro n hn
      rw [inv_flagOf (inv_reachable (reachable_runSeq σ n)) u]
      rcases hm22 n hn with h | h <;> rw [h] <;> rfl
    by_cases hvf : ∃ mf, pcOf (runSeq σ mf) (peer u) = .finished
    · obtain ⟨mf, hmf⟩ := hvf
      have hvfin := finished_absorbing σ (peer u) hmf
      have hflagv : ∀ n, max m2 mf ≤ n → flagOf (runSeq σ n) (peer u) = false := by
        intro n hn
        rw [inv_flagOf (inv_reachable (reachable_runSeq σ n)) (peer u),
          hvfin n (le_trans (le_max_right _ _) hn)]
        rfl
      exact cross_contra σ hF hA u hm21 (le_max_left m2 mf) hm22 hturn hflagv
    · push_neg at hvf
      obtain ⟨m3, hm31, hm32⟩ := loser_stuck σ hF hA (peer u) hvf hm21
        (fun n hn => by rw [hpp]; exact hflagu n hn)
        (fun n hn => by rw [hpp]; exact hturn n hn)
      have hflagv : ∀ n, m3 ≤ n → flagOf (runSeq σ n) (peer u) = false := by
        intro n hn
        rw [inv_flagOf (inv_reachable (reachable_runSeq σ n)) (peer u), hm32 n hn]
        rfl
      exact cross_contra σ hF hA u hm21 hm31 hm22 hturn hflagv
  · -- the stable turn favours the peer of u
    have hturn : ∀ n, N0 ≤ n → (runSeq σ n).turn = idOf (peer u) :=
      fun n hn => (hts n hn).trans hc
    by_cases hvf : ∃ mf, pcOf (runSeq σ mf) (peer u) = .finished
    · obtain ⟨mf, hmf⟩ := hvf
      exact blocked_loser_contra σ hF hA u hu (finished_absorbing σ (peer u) hmf) hturn
    · push_neg at hvf
      obtain ⟨m2, hm21, hm22⟩ := winner_stuck σ hF hA (peer u) hvf hturn
      have hflagv : ∀ n, m2 ≤ n → flagOf (runSeq σ n) (peer u) = true := by
        intro n hn
        rw [inv_flagOf (inv_reachable (reachable_runSeq σ n)) (peer u)]
        rcases hm22 n hn with h | h <;> rw [h] <;> rfl
      obtain ⟨m3, hm31, hm32⟩ := loser_stuck σ hF hA u hu hm21 hflagv hturn
      have hflagu : ∀ n, m3 ≤ n → flagOf (runSeq σ n) u = false := by
        intro n hn
        rw [inv_flagOf (inv_reachable (reachable_runSeq σ n)) u, hm32 n hn]
        rfl
      exact cross_contra σ hF hA (peer u) hm21 hm31 hm22 hturn
        (fun n hn => by rw [hpp]; exact hflagu n hn)

theorem C8_witness :
    ∃ n, pcOf (runSeq roundRobin n) 0 = .finished ∧
      pcOf (runSeq roundRobin n) 1 = .finished :=
  C8_termination roundRobin fair_roundRobin

end Dekker
